import Mathlib

/-! Verification of the upload pipeline of imap_eml_uploader.py.

Shallow embedding conventions: Python strings are `List Char`; the filesystem
walk, the IMAP session and the upload ledger are explicit inputs and outputs;
`sys.exit(code)` is modelled as an explicit `Option Nat` result field
(`some code` means the process terminated with that status).  Paths are taken
to be already canonical, so `os.path.abspath` is the identity on them. -/

/-- Python step `re.sub(r'[^\x00-\x7F]', '_', label)` of sanitize_label:
replace any non-ASCII character with an underscore. -/
def step1 (c : Char) : Char := if 128 ≤ c.toNat then '_' else c

/-- Python step `re.sub(r' ', '_', label)` of sanitize_label:
replace spaces with underscores. -/
def step2 (c : Char) : Char := if c = ' ' then '_' else c

/-- Python step `if delimiter != '.': re.sub(r'\.', '_', label)` of
sanitize_label: when the delimiter is not a dot, replace dots with
underscores. -/
def step3 (d : Char) (c : Char) : Char := if d ≠ '.' ∧ c = '.' then '_' else c

/-- The allowed character set of sanitize_label: ASCII letters, digits,
underscore, and the delimiter (adding the delimiter when it already is the
underscore changes nothing, exactly as in the Python set union). -/
def allowedChar (d : Char) (c : Char) : Bool :=
  c.isAlpha || c.isDigit || c == '_' || c == d

/-- Python step `re.sub(rf'[^{allowed}]', '_', label)` of sanitize_label:
replace any character outside the allowed set with an underscore. -/
def step4 (d : Char) (c : Char) : Char := if allowedChar d c then c else '_'

/-- The composition of the four character-wise substitutions of
sanitize_label, in source order. -/
def normChar (d : Char) (c : Char) : Char := step4 d (step3 d (step2 (step1 c)))

/-- Python step `re.sub(r'_+', '_', label)` of sanitize_label: collapse each
run of underscores to a single underscore. -/
def collapseU : List Char → List Char
  | [] => []
  | [c] => [c]
  | a :: b :: t =>
    if a = '_' ∧ b = '_' then collapseU (b :: t) else a :: collapseU (b :: t)

/-- Leading part of Python `label.strip('_')`: drop leading underscores. -/
def dropLeadU (l : List Char) : List Char := l.dropWhile (fun c => c == '_')

/-- Drop every trailing occurrence of the character `x`; used for the
trailing part of `label.strip('_')` and for
`re.sub(rf'{re.escape(delimiter)}+$', '', label)`. -/
def dropTrailing (x : Char) (l : List Char) : List Char :=
  (l.reverse.dropWhile (fun c => c == x)).reverse

/-- Python `label.strip('_')` of sanitize_label: remove leading and trailing
underscores. -/
def stripU (l : List Char) : List Char := dropTrailing '_' (dropLeadU l)

/-- Python step `if label.endswith(delimiter): re.sub(rf'{delim}+$', '', label)`
of sanitize_label: remove the trailing run of delimiters, if any. -/
def trimDelim (d : Char) (l : List Char) : List Char :=
  if l.getLast? = some d then dropTrailing d l else l

/-- The function sanitize_label of imap_eml_uploader.py (lines 51-78), with
the delimiter as a single character (IMAP hierarchy delimiters are single
characters).  The pipeline follows the source order: the four character
substitutions, underscore collapsing, underscore stripping, and trailing
delimiter removal. -/
def sanitize_label (label : List Char) (d : Char) : List Char :=
  trimDelim d (stripU (collapseU
    ((((label.map step1).map step2).map (step3 d)).map (step4 d))))

example : sanitize_label "a_/".toList '/' = "a_".toList := by decide
example : sanitize_label "a_".toList '/' = "a".toList := by decide
example : sanitize_label "My Folder.Name!".toList '/' = "My_Folder_Name".toList := by decide
example : sanitize_label "ARCH-IMPORT".toList '/' = "ARCH_IMPORT".toList := by decide
example : sanitize_label "ARCH-IMPORT".toList '-' = "ARCH-IMPORT".toList := by decide

/-- An absolute, canonical local path. -/
abbrev AbsPath := List Char

/-- The model of `os.path.abspath`: paths in the embedding are already
absolute and canonical, on which abspath is the identity. -/
def abspath (p : AbsPath) : AbsPath := p

/-- One entry of the `os.walk(base_dir)` traversal: the directory's path
relative to the base, as a list of segments (`[]` for the base itself,
mirroring `relative_path == '.'`), and the plain file names it contains. -/
structure WalkDir where
  rel : List (List Char)
  files : List (List Char)

/-- The check `filename.lower().endswith('.eml')` of collect_eml_files
(line 111).  `Char.toLower` matches Python `str.lower` on ASCII; no
non-ASCII character lowercases into the letters of `.eml`. -/
def isEml (fn : List Char) : Bool :=
  List.isSuffixOf (".eml".toList) (fn.map Char.toLower)

/-- The raw (pre-sanitization) IMAP label of a walk directory, lines 99-105:
the parent label for the base directory, otherwise
`parent ++ delimiter ++ relative path with os.sep replaced by the delimiter`. -/
def rawLabel (parent : List Char) (d : Char) (rel : List (List Char)) : List Char :=
  if rel = [] then parent else parent ++ d :: List.intercalate [d] rel

/-- The sanitized label assigned to a walk directory, line 107. -/
def dirLabel (parent : List Char) (d : Char) (rel : List (List Char)) : List Char :=
  sanitize_label (rawLabel parent d rel) d

/-- `os.path.abspath(os.path.join(root, filename))` of line 112, with
`os.sep` modelled as '/': the base directory joined with the relative
segments and the file name. -/
def pathOf (base : AbsPath) (rel : List (List Char)) (fn : List Char) : AbsPath :=
  abspath (base ++ '/' :: List.intercalate ['/'] (rel ++ [fn]))

/-- The work items one walk directory contributes in collect_eml_files
(lines 110-114): each `.eml` file whose absolute path is not in the
resume set, paired with the directory's sanitized label, in file order. -/
def collectDir (base : AbsPath) (uploaded : List AbsPath) (parent : List Char)
    (d : Char) (w : WalkDir) : List (AbsPath × List Char) :=
  w.files.filterMap (fun fn =>
    if isEml fn then
      (if pathOf base w.rel fn ∈ uploaded then none
       else some (pathOf base w.rel fn, dirLabel parent d w.rel))
    else none)

/-- The function collect_eml_files of imap_eml_uploader.py (lines 94-115):
walks the tree (the walk given as an explicit list of directory entries),
returning the work items in traversal order and the label of every visited
directory (the Python labels_set, modelled by its members). -/
def collect_eml_files (base : AbsPath) (uploaded : List AbsPath) (parent : List Char)
    (d : Char) (walk : List WalkDir) : List (AbsPath × List Char) × List (List Char) :=
  (walk.flatMap (collectDir base uploaded parent d),
   walk.map (fun w => dirLabel parent d w.rel))

/-- The marker `'[success] '` used by the ledger (lines 269 and 353). -/
def successTag : List Char := "[success] ".toList

/-- The resume parsing of main, lines 349-357: from the ledger lines (already
newline-stripped, as `line.strip()` does), keep the suffix of every line
starting with `'[success] '`, re-canonicalized by abspath. -/
def successSet (lines : List (List Char)) : List AbsPath :=
  lines.filterMap (fun line =>
    if successTag.isPrefixOf line then some (abspath (line.drop successTag.length))
    else none)

/-- Lines 341-357 of main: without `--resume` the ledger is deleted and the
uploaded set is empty; with `--resume` it is the parsed success set. -/
def resumeSet (resume : Bool) (lines : List (List Char)) : List AbsPath :=
  if resume then successSet lines else []

/-- The parent label `'ARCH-IMPORT'` passed by main (line 370). -/
def archParent : List Char := "ARCH-IMPORT".toList

/-- Line 383 of main:
`sorted(labels_to_create, key=lambda x: x.count(delimiter))` — Python's
sorted is a stable comparison sort on the key, modelled by Mathlib's
(stable) insertion sort on the same key. -/
def sortLabels (d : Char) (labels : List (List Char)) : List (List Char) :=
  List.insertionSort (fun a b => a.count d ≤ b.count d) labels

/-- Outcome of one IMAP connection attempt inside ImapUploader.connect:
`ok` — login succeeded; `transientErr` — an exception of the
connection/protocol tuple of line 141 (which includes `imaplib.IMAP4.error`,
the class raised by rejected logins); `authErr` — any other exception,
caught by the generic `except Exception` of line 153.  Both handlers retry
identically. -/
inductive ConnOutcome
  | ok
  | transientErr
  | authErr
deriving DecidableEq

/-- Result of ImapUploader.connect: `exit = some code` models `sys.exit(code)`;
`nextIdx` is the index after the last consumed connection attempt (so the
number of attempts made when starting from index 0); `delays` lists the
`time.sleep` durations, in order. -/
structure ConnResult where
  exit : Option Nat
  nextIdx : Nat
  delays : List Nat
deriving DecidableEq

/-- The retry loop of ImapUploader.connect (lines 123-163) over a stream `f`
of attempt outcomes: `max_retries = 15`, `retries` counts failures, the loop
runs `while retries <= max_retries`; on failure, if `retries <= max_retries`
still holds it sleeps `retry_delay` (doubling it) and retries, otherwise it
calls `sys.exit(1)`.  Both exception handlers (transient tuple and generic)
behave identically, as in the source. -/
def connectLoop (f : Nat → ConnOutcome) (i retries delay : Nat) : ConnResult :=
  if h : retries ≤ 15 then
    match f i with
    | .ok => ⟨none, i + 1, []⟩
    | .transientErr | .authErr =>
      if h2 : retries + 1 ≤ 15 then
        let r := connectLoop f (i + 1) (retries + 1) (delay * 2)
        ⟨r.exit, r.nextIdx, delay :: r.delays⟩
      else ⟨some 1, i + 1, []⟩
  else ⟨none, i, []⟩
termination_by 16 - retries
decreasing_by all_goals omega

/-- ImapUploader.connect entered as the source does: `retries = 0`,
`retry_delay = 1`, reading connection attempts from index `i` of the
stream. -/
def connectFrom (f : Nat → ConnOutcome) (i : Nat) : ConnResult :=
  connectLoop f i 0 1

/-- Outcome of one append attempt inside ImapUploader.upload_email:
`ok` — `imap.append` returned 'OK'; `notOk` — it returned a non-OK status,
raising `Exception` (line 273), caught by the generic handler; `transientErr`
— an exception of the connection/protocol tuple of line 275 (this tuple
contains OSError, so an unreadable local file also lands here); `otherErr` —
any other exception, caught by the generic handler of line 294. -/
inductive UpOutcome
  | ok
  | notOk
  | transientErr
  | otherErr
deriving DecidableEq

/-- A ledger line: `[success] path` or `[fail] path`. -/
inductive LedgerLine
  | success (p : AbsPath)
  | fail (p : AbsPath)
deriving DecidableEq

/-- Result of one ImapUploader.upload_email call: the ledger lines it
appended (each write is immediately followed by `flush()` in the source),
`exit` as in `ConnResult`, `nextK` the next append-attempt stream index,
`connIdx` the next connection-attempt stream index. -/
structure UpResult where
  log : List LedgerLine
  exit : Option Nat
  nextK : Nat
  connIdx : Nat
deriving DecidableEq

/-- The retry loop of ImapUploader.upload_email (lines 243-301) over a stream
`up` of append-attempt outcomes and a stream `conn` of connection-attempt
outcomes: on 'OK' it logs `[success]` and stops; on a non-OK status or a
non-transient exception it logs `[fail]` and stops; on a transient exception
it increments `retries` and, while `retries <= max_retries` (15), sleeps,
doubles the delay and calls `self.connect()` — whose `sys.exit(1)` on
exhaustion escapes the call (SystemExit is not an `Exception`) — otherwise
it logs `[fail]` and stops. -/
def uploadLoop (up : Nat → UpOutcome) (conn : Nat → ConnOutcome) (p : AbsPath)
    (k retries ci delay : Nat) : UpResult :=
  if h : retries ≤ 15 then
    match up k with
    | .ok => ⟨[.success p], none, k + 1, ci⟩
    | .notOk | .otherErr => ⟨[.fail p], none, k + 1, ci⟩
    | .transientErr =>
      if h2 : retries + 1 ≤ 15 then
        match (connectFrom conn ci).exit with
        | some code => ⟨[], some code, k + 1, (connectFrom conn ci).nextIdx⟩
        | none => uploadLoop up conn p (k + 1) (retries + 1)
            (connectFrom conn ci).nextIdx (delay * 2)
      else ⟨[.fail p], none, k + 1, ci⟩
  else ⟨[], none, k, ci⟩
termination_by 16 - retries
decreasing_by all_goals omega

/-- One ImapUploader.upload_email call entered as the source does:
`retries = 0`, `retry_delay = 1`. -/
def upload_email (up : Nat → UpOutcome) (conn : Nat → ConnOutcome) (p : AbsPath)
    (k ci : Nat) : UpResult :=
  uploadLoop up conn p k 0 ci 1

/-- The per-item upload loop of main (lines 389-393): items are processed in
order, each through upload_email; a `sys.exit` raised inside a call (via a
reconnect) ends the whole run, so no further item is attempted. -/
def runUploads (up : Nat → UpOutcome) (conn : Nat → ConnOutcome) :
    List AbsPath → Nat → Nat → List LedgerLine × Option Nat
  | [], _, _ => ([], none)
  | p :: ps, k, ci =>
    match (upload_email up conn p k ci).exit with
    | some c => ((upload_email up conn p k ci).log, some c)
    | none =>
      let r := upload_email up conn p k ci
      let rest := runUploads up conn ps r.nextK r.connIdx
      (r.log ++ rest.1, rest.2)

/-- A sample absolute path, used for concrete counterexamples. -/
def samplePath : AbsPath := "/mail/a.eml".toList

/-- A second sample absolute path. -/
def samplePath2 : AbsPath := "/mail/b.eml".toList

/-- A connection-attempt stream whose first attempt fails with an
authentication-style error and whose later attempts succeed. -/
def authThenOk : Nat → ConnOutcome := fun j => if j = 0 then .authErr else .ok

/-- A connection-attempt stream on which every attempt fails with a
transient error. -/
def connAllFail : Nat → ConnOutcome := fun _ => ConnOutcome.transientErr

/-- A connection-attempt stream on which every attempt succeeds. -/
def connAllOk : Nat → ConnOutcome := fun _ => ConnOutcome.ok

/-- An append-attempt stream on which every attempt fails transiently. -/
def upAllTransient : Nat → UpOutcome := fun _ => UpOutcome.transientErr

/-- An append-attempt stream on which every attempt succeeds. -/
def upAllOk : Nat → UpOutcome := fun _ => UpOutcome.ok

/-- Auxiliary predicate: the list has no two adjacent underscores.  Used to
characterize the output of the underscore-collapsing step. -/
def noAdjB : List Char → Bool
  | [] => true
  | [_] => true
  | a :: b :: t => (!(a == '_' && b == '_')) && noAdjB (b :: t)

theorem step1_lt (c : Char) : (step1 c).toNat < 128 := by
  unfold step1; split
  · decide
  · omega

theorem step1_cases (c : Char) : step1 c = c ∨ step1 c = '_' := by
  unfold step1; split
  · exact Or.inr rfl
  · exact Or.inl rfl

theorem step2_cases (c : Char) : step2 c = c ∨ step2 c = '_' := by
  unfold step2; split
  · exact Or.inr rfl
  · exact Or.inl rfl

theorem step2_ne_space (c : Char) : step2 c ≠ ' ' := by
  unfold step2; split
  · decide
  · assumption

theorem step3_cases (d c : Char) : step3 d c = c ∨ step3 d c = '_' := by
  unfold step3; split
  · exact Or.inr rfl
  · exact Or.inl rfl

theorem step3_ne_dot (d c : Char) (hd : d ≠ '.') : step3 d c ≠ '.' := by
  unfold step3; split
  · decide
  · rename_i h
    intro hc
    exact h ⟨hd, hc⟩

theorem step4_cases (d c : Char) : step4 d c = c ∨ step4 d c = '_' := by
  unfold step4; split
  · exact Or.inl rfl
  · exact Or.inr rfl

theorem allowedChar_underscore (d : Char) : allowedChar d '_' = true := by
  unfold allowedChar
  rw [show ('_' == '_') = true from rfl]
  simp

theorem step4_allowed (d c : Char) : allowedChar d (step4 d c) = true := by
  unfold step4; split
  · assumption
  · exact allowedChar_underscore d

theorem normChar_lt (d c : Char) : (normChar d c).toNat < 128 := by
  unfold normChar
  rcases step4_cases d (step3 d (step2 (step1 c))) with h4 | h4 <;> rw [h4]
  · rcases step3_cases d (step2 (step1 c)) with h3 | h3 <;> rw [h3]
    · rcases step2_cases (step1 c) with h2 | h2 <;> rw [h2]
      · exact step1_lt c
      · decide
    · decide
  · decide

theorem normChar_ne_space (d c : Char) : normChar d c ≠ ' ' := by
  unfold normChar
  rcases step4_cases d (step3 d (step2 (step1 c))) with h4 | h4 <;> rw [h4]
  · rcases step3_cases d (step2 (step1 c)) with h3 | h3 <;> rw [h3]
    · exact step2_ne_space (step1 c)
    · decide
  · decide

theorem normChar_ne_dot (d c : Char) (hd : d ≠ '.') : normChar d c ≠ '.' := by
  unfold normChar
  rcases step4_cases d (step3 d (step2 (step1 c))) with h4 | h4 <;> rw [h4]
  · exact step3_ne_dot d _ hd
  · decide

theorem normChar_allowed (d c : Char) : allowedChar d (normChar d c) = true :=
  step4_allowed d _

theorem normChar_fix (d c : Char) (h1 : c.toNat < 128) (h2 : c ≠ ' ')
    (h3 : d ≠ '.' → c ≠ '.') (h4 : allowedChar d c = true) : normChar d c = c := by
  have e1 : step1 c = c := by unfold step1; rw [if_neg (by omega)]
  have e2 : step2 c = c := by unfold step2; rw [if_neg h2]
  have e3 : step3 d c = c := by
    unfold step3
    rw [if_neg]
    rintro ⟨hd, hc⟩
    exact h3 hd hc
  have e4 : step4 d c = c := by unfold step4; rw [if_pos h4]
  unfold normChar
  rw [e1, e2, e3, e4]

theorem map_id_of {α : Type} (f : α → α) :
    ∀ l : List α, (∀ a ∈ l, f a = a) → l.map f = l := by
  intro l
  induction l with
  | nil => intro _; rfl
  | cons c t ih =>
    intro h
    simp only [List.map_cons]
    rw [h c (by simp), ih (fun a ha => h a (by simp [ha]))]

theorem sanitize_eq (l : List Char) (d : Char) :
    sanitize_label l d = trimDelim d (stripU (collapseU (l.map (normChar d)))) := by
  unfold sanitize_label
  simp only [List.map_map]
  rfl


theorem collapseU_eq₃ (a b : Char) (t : List Char) :
    collapseU (a :: b :: t) =
      if a = '_' ∧ b = '_' then collapseU (b :: t) else a :: collapseU (b :: t) := rfl

theorem noAdjB_eq₃ (a b : Char) (t : List Char) :
    noAdjB (a :: b :: t) = ((!(a == '_' && b == '_')) && noAdjB (b :: t)) := rfl

theorem collapse_cons₂ (a b : Char) (t : List Char) (h : ¬(a = '_' ∧ b = '_')) :
    collapseU (a :: b :: t) = a :: collapseU (b :: t) := by
  rw [collapseU_eq₃, if_neg h]

theorem collapse_cons_ne (a : Char) (l : List Char) (h : a ≠ '_') :
    collapseU (a :: l) = a :: collapseU l := by
  cases l with
  | nil => rfl
  | cons b t => exact collapse_cons₂ a b t (fun hh => h hh.1)

theorem head?_collapse (b : Char) (t : List Char) :
    (collapseU (b :: t)).head? = some b := by
  induction t generalizing b with
  | nil => rfl
  | cons c t' ih =>
    by_cases hbc : b = '_' ∧ c = '_'
    · rw [collapseU_eq₃, if_pos hbc, ih c, hbc.1, hbc.2]
    · rw [collapse_cons₂ b c t' hbc]
      rfl

theorem noAdj_iff (a b : Char) (t : List Char) :
    noAdjB (a :: b :: t) = true ↔ ¬(a = '_' ∧ b = '_') ∧ noAdjB (b :: t) = true := by
  rw [noAdjB_eq₃, Bool.and_eq_true_iff]
  simp only [Bool.not_eq_true', Bool.and_eq_false_iff, beq_eq_false_iff_ne, ne_eq]
  constructor
  · rintro ⟨h1, h2⟩
    refine ⟨?_, h2⟩
    rintro ⟨ha, hb⟩
    rcases h1 with h | h
    · exact h ha
    · exact h hb
  · rintro ⟨h1, h2⟩
    refine ⟨?_, h2⟩
    by_cases ha : a = '_'
    · right; intro hb; exact h1 ⟨ha, hb⟩
    · left; exact ha

theorem noAdj_tail (a : Char) (l : List Char) (h : noAdjB (a :: l) = true) :
    noAdjB l = true := by
  cases l with
  | nil => rfl
  | cons b t => exact ((noAdj_iff a b t).mp h).2

theorem noAdj_cons (a b : Char) (X : List Char) (hhead : X.head? = some b)
    (hab : ¬(a = '_' ∧ b = '_')) (hX : noAdjB X = true) :
    noAdjB (a :: X) = true := by
  cases X with
  | nil => simp at hhead
  | cons c t =>
    have hbc : c = b := by simpa using hhead
    subst hbc
    exact (noAdj_iff a c t).mpr ⟨hab, hX⟩

theorem collapse_noAdj (l : List Char) : noAdjB (collapseU l) = true := by
  induction l using collapseU.induct with
  | case1 => rfl
  | case2 c => rfl
  | case3 a b t h ih =>
    rw [collapseU_eq₃, if_pos h]
    exact ih
  | case4 a b t h ih =>
    rw [collapse_cons₂ a b t h]
    exact noAdj_cons a b _ (head?_collapse b t) h ih

theorem collapse_of_noAdj (l : List Char) (h : noAdjB l = true) :
    collapseU l = l := by
  induction l using collapseU.induct with
  | case1 => rfl
  | case2 c => rfl
  | case3 a b t hab ih =>
    exact absurd hab ((noAdj_iff a b t).mp h).1
  | case4 a b t hab ih =>
    rw [collapse_cons₂ a b t hab, ih ((noAdj_iff a b t).mp h).2]

theorem mem_collapse (a : Char) (l : List Char) (h : a ∈ collapseU l) : a ∈ l := by
  induction l using collapseU.induct with
  | case1 => exact h
  | case2 c => exact h
  | case3 x b t hxb ih =>
    rw [collapseU_eq₃, if_pos hxb] at h
    simpa using Or.inr (ih h)
  | case4 x b t hxb ih =>
    rw [collapse_cons₂ x b t hxb] at h
    rcases List.mem_cons.mp h with h' | h'
    · simp [h']
    · simpa using Or.inr (ih h')

theorem collapse_append (p r : List Char) (hp : noAdjB p = true)
    (hl : p.getLast? ≠ some '_') : collapseU (p ++ r) = p ++ collapseU r := by
  induction p using collapseU.induct with
  | case1 => rfl
  | case2 c =>
    have hc : c ≠ '_' := by
      intro h
      exact hl (by simp [h])
    rw [List.cons_append, List.nil_append, collapse_cons_ne c r hc]
    rfl
  | case3 a b t hab ih =>
    exact absurd hab ((noAdj_iff a b t).mp hp).1
  | case4 a b t hab ih =>
    have e : (a :: b :: t) ++ r = a :: b :: (t ++ r) := rfl
    rw [e, collapse_cons₂ a b (t ++ r) hab]
    have e2 : b :: (t ++ r) = (b :: t) ++ r := rfl
    rw [e2, ih (noAdj_tail a _ hp) (by rwa [List.getLast?_cons_cons] at hl)]
    rfl

theorem head?_dropWhile {α : Type} (u : α → Bool) (l : List α) (a : α)
    (h : (l.dropWhile u).head? = some a) : u a = false := by
  induction l with
  | nil => simp at h
  | cons c t ih =>
    by_cases hc : u c = true
    · rw [List.dropWhile_cons_of_pos hc] at h
      exact ih h
    · rw [List.dropWhile_cons_of_neg hc] at h
      have : c = a := by simpa using h
      subst this
      simpa using hc

theorem dropWhile_suffix_ex {α : Type} (u : α → Bool) (l : List α) :
    ∃ s, s ++ l.dropWhile u = l := by
  rcases List.dropWhile_suffix (l := l) u with ⟨s, hs⟩
  exact ⟨s, hs⟩

theorem dropTrailing_prefix_ex (x : Char) (l : List Char) :
    ∃ t, dropTrailing x l ++ t = l := by
  rcases dropWhile_suffix_ex (fun c => c == x) l.reverse with ⟨s, hs⟩
  refine ⟨s.reverse, ?_⟩
  unfold dropTrailing
  have := congrArg List.reverse hs
  rwa [List.reverse_append, List.reverse_reverse] at this

theorem getLast?_dropTrailing (x : Char) (l : List Char) (a : Char)
    (h : (dropTrailing x l).getLast? = some a) : a ≠ x := by
  unfold dropTrailing at h
  rw [List.getLast?_reverse] at h
  have := head?_dropWhile (fun c => c == x) l.reverse a h
  simpa using this

theorem dropTrailing_of_getLast_ne (x : Char) (l : List Char)
    (h : l.getLast? ≠ some x) : dropTrailing x l = l := by
  unfold dropTrailing
  cases hrev : l.reverse with
  | nil =>
    have : l = [] := by simpa using congrArg List.reverse hrev
    simp [this]
  | cons c t =>
    have hc : c ≠ x := by
      intro he
      apply h
      rw [← List.head?_reverse, hrev, he]
      rfl
    rw [List.dropWhile_cons_of_neg (by simpa using hc), ← hrev, List.reverse_reverse]

theorem dropTrailing_append (x : Char) (p s : List Char)
    (h : p.getLast? ≠ some x) : dropTrailing x (p ++ s) = p ++ dropTrailing x s := by
  cases hrev : p.reverse with
  | nil =>
    have : p = [] := by simpa using congrArg List.reverse hrev
    simp [this]
  | cons c t =>
    have hc : c ≠ x := by
      intro he
      apply h
      rw [← List.head?_reverse, hrev, he]
      rfl
    unfold dropTrailing
    rw [List.reverse_append, hrev, List.dropWhile_append]
    by_cases he : (List.dropWhile (fun ch => ch == x) s.reverse).isEmpty = true
    · rw [if_pos he, List.dropWhile_cons_of_neg (by simpa using hc), ← hrev,
        List.reverse_reverse]
      have : List.dropWhile (fun ch => ch == x) s.reverse = [] :=
        List.isEmpty_iff.mp he
      rw [this]
      simp
    · rw [if_neg he, List.reverse_append, ← hrev, List.reverse_reverse]

theorem head?_of_app {α : Type} (q t m : List α) (h : q ++ t = m) :
    q.head? = none ∨ q.head? = m.head? := by
  cases q with
  | nil => exact Or.inl rfl
  | cons c s =>
    right
    rw [← h]
    rfl

theorem mem_of_app {α : Type} (q t m : List α) (h : q ++ t = m) (a : α)
    (ha : a ∈ q) : a ∈ m := by
  rw [← h]
  exact List.mem_append.mpr (Or.inl ha)

theorem stripU_head (l : List Char) (a : Char)
    (h : (stripU l).head? = some a) : a ≠ '_' := by
  unfold stripU at h
  rcases dropTrailing_prefix_ex '_' (dropLeadU l) with ⟨t, ht⟩
  rcases head?_of_app _ _ _ ht with h' | h'
  · rw [h'] at h
    simp at h
  · rw [h'] at h
    have hdw : (List.dropWhile (fun c => c == '_') l).head? = some a := h
    have := head?_dropWhile (fun c => c == '_') l a hdw
    simpa using this

theorem stripU_noop (l : List Char) (h1 : l.head? ≠ some '_')
    (h2 : l.getLast? ≠ some '_') : stripU l = l := by
  unfold stripU
  have e : dropLeadU l = l := by
    unfold dropLeadU
    cases l with
    | nil => rfl
    | cons c t =>
      have hc : c ≠ '_' := by
        intro he
        exact h1 (by simp [he])
      rw [List.dropWhile_cons_of_neg (by simpa using hc)]
  rw [e]
  exact dropTrailing_of_getLast_ne '_' l h2

theorem trim_getLast (d : Char) (l : List Char) :
    (trimDelim d l).getLast? ≠ some d := by
  unfold trimDelim
  split
  · intro h
    exact getLast?_dropTrailing d l d h rfl
  · assumption

theorem trim_of_getLast_ne (d : Char) (l : List Char)
    (h : l.getLast? ≠ some d) : trimDelim d l = l := by
  unfold trimDelim
  rw [if_neg h]

theorem trim_prefix_ex (d : Char) (l : List Char) :
    ∃ t, trimDelim d l ++ t = l := by
  unfold trimDelim
  split
  · exact dropTrailing_prefix_ex d l
  · exact ⟨[], List.append_nil l⟩

theorem mem_stripU (a : Char) (l : List Char) (h : a ∈ stripU l) : a ∈ l := by
  unfold stripU at h
  rcases dropTrailing_prefix_ex '_' (dropLeadU l) with ⟨t, ht⟩
  have h2 : a ∈ dropLeadU l := mem_of_app _ _ _ ht a h
  rcases dropWhile_suffix_ex (fun c => c == '_') l with ⟨s, hs⟩
  rw [← hs]
  exact List.mem_append.mpr (Or.inr h2)

theorem mem_trim (a : Char) (d : Char) (l : List Char) (h : a ∈ trimDelim d l) :
    a ∈ l := by
  rcases trim_prefix_ex d l with ⟨t, ht⟩
  exact mem_of_app _ _ _ ht a h

theorem mem_sanitize (a : Char) (l : List Char) (d : Char)
    (h : a ∈ sanitize_label l d) : ∃ c ∈ l, normChar d c = a := by
  rw [sanitize_eq] at h
  have h1 := mem_trim a d _ h
  have h2 := mem_stripU a _ h1
  have h3 := mem_collapse a _ h2
  exact List.mem_map.mp h3

theorem sanitize_allowed (l : List Char) (d : Char) :
    ∀ a ∈ sanitize_label l d, allowedChar d a = true := by
  intro a ha
  rcases mem_sanitize a l d ha with ⟨c, _, hc⟩
  rw [← hc]
  exact normChar_allowed d c

theorem sanitize_lt (l : List Char) (d : Char) :
    ∀ a ∈ sanitize_label l d, a.toNat < 128 := by
  intro a ha
  rcases mem_sanitize a l d ha with ⟨c, _, hc⟩
  rw [← hc]
  exact normChar_lt d c

theorem sanitize_ne_space (l : List Char) (d : Char) :
    ∀ a ∈ sanitize_label l d, a ≠ ' ' := by
  intro a ha
  rcases mem_sanitize a l d ha with ⟨c, _, hc⟩
  rw [← hc]
  exact normChar_ne_space d c

theorem sanitize_ne_dot (l : List Char) (d : Char) (hd : d ≠ '.') :
    ∀ a ∈ sanitize_label l d, a ≠ '.' := by
  intro a ha
  rcases mem_sanitize a l d ha with ⟨c, _, hc⟩
  rw [← hc]
  exact normChar_ne_dot d c hd

theorem sanitize_head (l : List Char) (d : Char) :
    (sanitize_label l d).head? ≠ some '_' := by
  rw [sanitize_eq]
  intro h
  rcases trim_prefix_ex d (stripU (collapseU (l.map (normChar d)))) with ⟨t, ht⟩
  rcases head?_of_app _ _ _ ht with h' | h'
  · rw [h'] at h
    simp at h
  · rw [h'] at h
    exact stripU_head _ '_' h rfl

theorem sanitize_getLast (l : List Char) (d : Char) :
    (sanitize_label l d).getLast? ≠ some d := by
  rw [sanitize_eq]
  exact trim_getLast d _

theorem noAdj_append_left (q t : List Char) (h : noAdjB (q ++ t) = true) :
    noAdjB q = true := by
  induction q using collapseU.induct with
  | case1 => rfl
  | case2 c => rfl
  | case3 a b s hab ih =>
    have e : (a :: b :: s) ++ t = a :: b :: (s ++ t) := rfl
    rw [e] at h
    exact absurd hab ((noAdj_iff a b (s ++ t)).mp h).1
  | case4 a b s hab ih =>
    have e : (a :: b :: s) ++ t = a :: b :: (s ++ t) := rfl
    rw [e] at h
    have h2 := ((noAdj_iff a b (s ++ t)).mp h).2
    have e2 : b :: (s ++ t) = (b :: s) ++ t := rfl
    rw [e2] at h2
    exact (noAdj_iff a b s).mpr ⟨hab, ih h2⟩

theorem noAdj_dropWhile (u : Char → Bool) (l : List Char)
    (h : noAdjB l = true) : noAdjB (l.dropWhile u) = true := by
  induction l with
  | nil => rfl
  | cons c t ih =>
    by_cases hc : u c = true
    · rw [List.dropWhile_cons_of_pos hc]
      exact ih (noAdj_tail c t h)
    · rw [List.dropWhile_cons_of_neg hc]
      exact h

theorem noAdj_dropTrailing (x : Char) (l : List Char)
    (h : noAdjB l = true) : noAdjB (dropTrailing x l) = true := by
  rcases dropTrailing_prefix_ex x l with ⟨t, ht⟩
  exact noAdj_append_left _ t (by rwa [ht])

theorem sanitize_noAdj (l : List Char) (d : Char) :
    noAdjB (sanitize_label l d) = true := by
  rw [sanitize_eq]
  have h0 := collapse_noAdj (l.map (normChar d))
  have h1 : noAdjB (stripU (collapseU (l.map (normChar d)))) = true := by
    unfold stripU
    exact noAdj_dropTrailing '_' _ (noAdj_dropWhile _ _ h0)
  unfold trimDelim
  split
  · exact noAdj_dropTrailing d _ h1
  · exact h1

theorem sanitize_fix (l : List Char) (d : Char)
    (h : (sanitize_label l d).getLast? ≠ some '_') :
    sanitize_label (sanitize_label l d) d = sanitize_label l d := by
  have hmap : (sanitize_label l d).map (normChar d) = sanitize_label l d :=
    map_id_of (normChar d) (sanitize_label l d) (fun a ha =>
      normChar_fix d a (sanitize_lt l d a ha) (sanitize_ne_space l d a ha)
        (fun hd => sanitize_ne_dot l d hd a ha) (sanitize_allowed l d a ha))
  rw [sanitize_eq (sanitize_label l d) d, hmap,
    collapse_of_noAdj _ (sanitize_noAdj l d),
    stripU_noop _ (sanitize_head l d) h,
    trim_of_getLast_ne d _ (sanitize_getLast l d)]

/-- Claim C6, counterexample: sanitize_label is not idempotent.  For the
input `"a_/"` with delimiter `'/'` the first pass yields `"a_"` (the
trailing-delimiter removal exposes an underscore) and the second pass
strips that underscore, yielding `"a"`. -/
theorem c6_cex :
    sanitize_label (sanitize_label ("a_/".toList) '/') '/' ≠
      sanitize_label ("a_/".toList) '/' := by decide

/-- Claim C6 as amended: sanitize_label is idempotent on every input whose
sanitized form does not end in an underscore; re-sanitizing such an output
is a no-op. -/
theorem c6_sanitize_idempotent (x : List Char) (d : Char)
    (h : (sanitize_label x d).getLast? ≠ some '_') :
    sanitize_label (sanitize_label x d) d = sanitize_label x d :=
  sanitize_fix x d h

theorem c6_witness :
    (sanitize_label ("ab".toList) '/').getLast? ≠ some '_' ∧
      sanitize_label (sanitize_label ("ab".toList) '/') '/' =
        sanitize_label ("ab".toList) '/' :=
  ⟨by decide, c6_sanitize_idempotent ("ab".toList) '/' (by decide)⟩

/-- Claim C7, counterexample: the output of sanitize_label can end in an
underscore: sanitizing `"b_/"` with delimiter `'/'` yields `"b_"`. -/
theorem c7_cex : (sanitize_label ("b_/".toList) '/').getLast? = some '_' := by
  decide

/-- Claim C7 as amended: for every input and delimiter, the output of
sanitize_label contains only ASCII letters, digits, underscore and the
delimiter, has no leading underscore and no trailing delimiter character
(but may end in an underscore, as the counterexample shows). -/
theorem c7_sanitize_charset (x : List Char) (d : Char) :
    (∀ a ∈ sanitize_label x d, allowedChar d a = true) ∧
      (sanitize_label x d).head? ≠ some '_' ∧
      (sanitize_label x d).getLast? ≠ some d :=
  ⟨sanitize_allowed x d, sanitize_head x d, sanitize_getLast x d⟩

theorem c7_witness :
    (∀ a ∈ sanitize_label ("My Folder.Name!".toList) '/',
        allowedChar '/' a = true) ∧
      (sanitize_label ("My Folder.Name!".toList) '/').head? ≠ some '_' ∧
      (sanitize_label ("My Folder.Name!".toList) '/').getLast? ≠ some '/' :=
  c7_sanitize_charset ("My Folder.Name!".toList) '/'

theorem allowedChar_of_alpha (d c : Char) (h : c.isAlpha = true) :
    allowedChar d c = true := by
  unfold allowedChar
  rw [h]
  simp

theorem normChar_alpha (d c : Char) (h : c.isAlpha = true) (h1 : c.toNat < 128)
    (h2 : c ≠ ' ') (h3 : c ≠ '.') : normChar d c = c :=
  normChar_fix d c h1 h2 (fun _ => h3) (allowedChar_of_alpha d c h)

theorem normChar_hyphen (d : Char) (hd : d ≠ '-') : normChar d '-' = '_' := by
  have e1 : step1 '-' = '-' := by decide
  have e2 : step2 '-' = '-' := by decide
  have e3 : step3 d '-' = '-' := by
    unfold step3
    rw [if_neg]
    rintro ⟨_, hc⟩
    exact absurd hc (by decide)
  have e4 : step4 d '-' = '_' := by
    unfold step4
    rw [if_neg]
    intro hall
    unfold allowedChar at hall
    rw [show (Char.isAlpha '-') = false from rfl,
      show (Char.isDigit '-') = false from rfl,
      show (('-' == '_')) = false from rfl] at hall
    simp only [Bool.false_or] at hall
    have hde : '-' = d := by simpa using hall
    exact hd hde.symm
  unfold normChar
  rw [e1, e2, e3, e4]

theorem map_parent (d : Char) (hd : d ≠ '-') :
    archParent.map (normChar d) = "ARCH_IMPORT".toList := by
  have hA := normChar_alpha d 'A' (by decide) (by decide) (by decide) (by decide)
  have hR := normChar_alpha d 'R' (by decide) (by decide) (by decide) (by decide)
  have hC := normChar_alpha d 'C' (by decide) (by decide) (by decide) (by decide)
  have hH := normChar_alpha d 'H' (by decide) (by decide) (by decide) (by decide)
  have hI := normChar_alpha d 'I' (by decide) (by decide) (by decide) (by decide)
  have hM := normChar_alpha d 'M' (by decide) (by decide) (by decide) (by decide)
  have hP := normChar_alpha d 'P' (by decide) (by decide) (by decide) (by decide)
  have hO := normChar_alpha d 'O' (by decide) (by decide) (by decide) (by decide)
  have hT := normChar_alpha d 'T' (by decide) (by decide) (by decide) (by decide)
  have hh := normChar_hyphen d hd
  rw [show archParent = ['A','R','C','H','-','I','M','P','O','R','T'] from rfl]
  simp only [List.map_cons, List.map_nil]
  rw [hA, hR, hC, hH, hh, hI, hM, hP, hO, hT]
  rfl

theorem sanitize_parent_pre (d : Char) (r : List Char) (hd : d ≠ '-')
    (hT : d ≠ 'T') :
    "ARCH_IMPORT".toList <+: sanitize_label (archParent ++ r) d := by
  have hmap : (archParent ++ r).map (normChar d) =
      "ARCH_IMPORT".toList ++ r.map (normChar d) := by
    rw [List.map_append, map_parent d hd]
  have hnoadj : noAdjB ("ARCH_IMPORT".toList) = true := by decide
  have hlastu : ("ARCH_IMPORT".toList).getLast? ≠ some '_' := by decide
  have hlastT : ("ARCH_IMPORT".toList).getLast? ≠ some d := by
    have hGT : ("ARCH_IMPORT".toList).getLast? = some 'T' := by decide
    rw [hGT]
    intro h
    exact hT (Option.some.inj h).symm
  rw [sanitize_eq, hmap, collapse_append _ _ hnoadj hlastu]
  unfold stripU
  have hdl : dropLeadU ("ARCH_IMPORT".toList ++ collapseU (r.map (normChar d))) =
      "ARCH_IMPORT".toList ++ collapseU (r.map (normChar d)) := by
    unfold dropLeadU
    have e : "ARCH_IMPORT".toList ++ collapseU (r.map (normChar d)) =
        'A' :: ("RCH_IMPORT".toList ++ collapseU (r.map (normChar d))) := rfl
    rw [e, List.dropWhile_cons_of_neg (by decide)]
  rw [hdl, dropTrailing_append '_' _ _ hlastu]
  unfold trimDelim
  split
  · rw [dropTrailing_append d _ _ hlastT]
    exact List.prefix_append _ _
  · exact List.prefix_append _ _

theorem rawLabel_split (parent : List Char) (d : Char) (rel : List (List Char)) :
    ∃ r, rawLabel parent d rel = parent ++ r := by
  unfold rawLabel
  split
  · exact ⟨[], (List.append_nil parent).symm⟩
  · exact ⟨_, rfl⟩

theorem dirLabel_pre (d : Char) (rel : List (List Char)) (hd : d ≠ '-')
    (hT : d ≠ 'T') : "ARCH_IMPORT".toList <+: dirLabel archParent d rel := by
  unfold dirLabel
  rcases rawLabel_split archParent d rel with ⟨r, hr⟩
  rw [hr]
  exact sanitize_parent_pre d r hd hT

theorem mem_collectDir (base : AbsPath) (uploaded : List AbsPath)
    (parent : List Char) (d : Char) (w : WalkDir) (p : AbsPath) (lab : List Char) :
    (p, lab) ∈ collectDir base uploaded parent d w ↔
      ∃ fn ∈ w.files, isEml fn = true ∧ p = pathOf base w.rel fn ∧
        p ∉ uploaded ∧ lab = dirLabel parent d w.rel := by
  unfold collectDir
  rw [List.mem_filterMap]
  constructor
  · rintro ⟨fn, hfn, heq⟩
    by_cases h1 : isEml fn = true
    · rw [if_pos h1] at heq
      by_cases h2 : pathOf base w.rel fn ∈ uploaded
      · rw [if_pos h2] at heq
        cases heq
      · rw [if_neg h2] at heq
        injection heq with heq'
        have hp : pathOf base w.rel fn = p := congrArg Prod.fst heq'
        have hl : dirLabel parent d w.rel = lab := congrArg Prod.snd heq'
        exact ⟨fn, hfn, h1, hp.symm, by rw [← hp]; exact h2, hl.symm⟩
    · rw [if_neg h1] at heq
      cases heq
  · rintro ⟨fn, hfn, h1, hp, hnm, hl⟩
    refine ⟨fn, hfn, ?_⟩
    rw [if_pos h1, if_neg (by rw [← hp]; exact hnm), hp, hl]

theorem mem_collect (base : AbsPath) (uploaded : List AbsPath)
    (parent : List Char) (d : Char) (walk : List WalkDir) (p : AbsPath)
    (lab : List Char) :
    (p, lab) ∈ (collect_eml_files base uploaded parent d walk).1 ↔
      ∃ w ∈ walk, ∃ fn ∈ w.files, isEml fn = true ∧ p = pathOf base w.rel fn ∧
        p ∉ uploaded ∧ lab = dirLabel parent d w.rel := by
  unfold collect_eml_files
  rw [List.mem_flatMap]
  constructor
  · rintro ⟨w, hw, hm⟩
    exact ⟨w, hw, (mem_collectDir base uploaded parent d w p lab).mp hm⟩
  · rintro ⟨w, hw, rest⟩
    exact ⟨w, hw, (mem_collectDir base uploaded parent d w p lab).mpr rest⟩

theorem resumeSet_true (lines : List (List Char)) :
    resumeSet true lines = successSet lines := rfl

/-- Claim C10 (confirmed): a file of the walked tree yields a work item
exactly when its name ends in `.eml` case-insensitively and its absolute
path is not in the resume success set; every other file yields no work
item.  The produced item carries the file's absolute path and the
directory's sanitized label. -/
theorem c10_workitem_iff (base : AbsPath) (uploaded : List AbsPath)
    (parent : List Char) (d : Char) (walk : List WalkDir) (p : AbsPath)
    (lab : List Char) :
    (p, lab) ∈ (collect_eml_files base uploaded parent d walk).1 ↔
      ∃ w ∈ walk, ∃ fn ∈ w.files, isEml fn = true ∧ p = pathOf base w.rel fn ∧
        p ∉ uploaded ∧ lab = dirLabel parent d w.rel :=
  mem_collect base uploaded parent d walk p lab

theorem c10_witness :
    (("/mail/a.eml".toList, "ARCH_IMPORT".toList) ∈
        (collect_eml_files ("/mail".toList) [] archParent '/'
          [⟨[], ["a.eml".toList, "notes.txt".toList]⟩]).1 ↔
      ∃ w ∈ [(⟨[], ["a.eml".toList, "notes.txt".toList]⟩ : WalkDir)],
        ∃ fn ∈ w.files, isEml fn = true ∧
          "/mail/a.eml".toList = pathOf ("/mail".toList) w.rel fn ∧
          "/mail/a.eml".toList ∉ ([] : List AbsPath) ∧
          "ARCH_IMPORT".toList = dirLabel archParent '/' w.rel) :=
  c10_workitem_iff ("/mail".toList) [] archParent '/'
    [⟨[], ["a.eml".toList, "notes.txt".toList]⟩] ("/mail/a.eml".toList)
    ("ARCH_IMPORT".toList)

/-- Claim C1 (confirmed): resuming never re-uploads a path recorded
`[success]` in the ledger, and the exclusion is exactly the parsed success
set: a pair is collected under the resume set exactly when it would be
collected with no exclusions and its path is not in the success set.  Only
the path is consulted, so this holds regardless of file contents. -/
theorem c1_resume_excludes (ledger : List (List Char)) (base : AbsPath)
    (parent : List Char) (d : Char) (walk : List WalkDir) (p : AbsPath)
    (lab : List Char) :
    (p ∈ successSet ledger →
      (p, lab) ∉ (collect_eml_files base (resumeSet true ledger) parent d walk).1) ∧
    ((p, lab) ∈ (collect_eml_files base (resumeSet true ledger) parent d walk).1 ↔
      (p, lab) ∈ (collect_eml_files base [] parent d walk).1 ∧
        p ∉ successSet ledger) := by
  rw [resumeSet_true]
  constructor
  · intro hp hm
    rcases (mem_collect base (successSet ledger) parent d walk p lab).mp hm with
      ⟨w, hw, fn, hfn, h1, hpe, hnm, hl⟩
    exact hnm hp
  · rw [mem_collect, mem_collect]
    constructor
    · rintro ⟨w, hw, fn, hfn, h1, hpe, hnm, hl⟩
      exact ⟨⟨w, hw, fn, hfn, h1, hpe, by simp, hl⟩, hnm⟩
    · rintro ⟨⟨w, hw, fn, hfn, h1, hpe, _, hl⟩, hnm⟩
      exact ⟨w, hw, fn, hfn, h1, hpe, hnm, hl⟩

theorem c1_witness :
    ("/mail/a.eml".toList ∈ successSet ["[success] /mail/a.eml".toList]) ∧
      ("/mail/a.eml".toList, "ARCH_IMPORT".toList) ∉
        (collect_eml_files ("/mail".toList)
          (resumeSet true ["[success] /mail/a.eml".toList]) archParent '/'
          [⟨[], ["a.eml".toList]⟩]).1 :=
  ⟨by decide,
    (c1_resume_excludes ["[success] /mail/a.eml".toList] ("/mail".toList)
      archParent '/' [⟨[], ["a.eml".toList]⟩] ("/mail/a.eml".toList)
      ("ARCH_IMPORT".toList)).1 (by decide)⟩

/-- Claim C9, counterexample: when the discovered hierarchy delimiter is
`'-'`, the hyphen is inside sanitize_label's allowed set, so the root label
stays `ARCH-IMPORT` and does not begin with `ARCH_IMPORT`. -/
theorem c9_cex :
    (collect_eml_files ("/mail".toList) [] archParent '-'
        [⟨[], ["a.eml".toList]⟩]).2 = ["ARCH-IMPORT".toList] ∧
      ¬ ("ARCH_IMPORT".toList <+:
          (("ARCH-IMPORT".toList) : List Char)) := by
  constructor
  · decide
  · decide

/-- Claim C9 as amended: for every delimiter other than `'-'` (which keeps
the hyphen) and `'T'` (for which the trailing-delimiter trim can erode the
parent name), every label produced by collect_eml_files — and hence every
work item's target label — begins with `ARCH_IMPORT`, not the configured
parent `ARCH-IMPORT`. -/
theorem c9_labels_arch_import (base : AbsPath) (uploaded : List AbsPath)
    (d : Char) (walk : List WalkDir) (hd : d ≠ '-') (hT : d ≠ 'T') :
    (∀ lab ∈ (collect_eml_files base uploaded archParent d walk).2,
        "ARCH_IMPORT".toList <+: lab) ∧
      (∀ pr ∈ (collect_eml_files base uploaded archParent d walk).1,
        "ARCH_IMPORT".toList <+: pr.2) := by
  constructor
  · intro lab hlab
    rcases List.mem_map.mp hlab with ⟨w, hw, hl⟩
    rw [← hl]
    exact dirLabel_pre d w.rel hd hT
  · rintro ⟨p, lab⟩ hpr
    rcases (mem_collect base uploaded archParent d walk p lab).mp hpr with
      ⟨w, hw, fn, hfn, h1, hp, hnm, hl⟩
    rw [hl]
    exact dirLabel_pre d w.rel hd hT

theorem c9_witness :
    ((('/' : Char) ≠ '-') ∧ (('/' : Char) ≠ 'T')) ∧
      ((∀ lab ∈ (collect_eml_files ("/mail".toList) [] archParent '/'
          [⟨[], ["a.eml".toList]⟩]).2, "ARCH_IMPORT".toList <+: lab) ∧
        (∀ pr ∈ (collect_eml_files ("/mail".toList) [] archParent '/'
          [⟨[], ["a.eml".toList]⟩]).1, "ARCH_IMPORT".toList <+: pr.2)) :=
  ⟨⟨by decide, by decide⟩,
    c9_labels_arch_import ("/mail".toList) [] '/' [⟨[], ["a.eml".toList]⟩]
      (by decide) (by decide)⟩

/-- Claim C8 (confirmed): the label sequence passed to create_imap_label is
sorted non-decreasing by the number of delimiter occurrences (the label's
depth), and it is a permutation of the collected label set, so a parent
folder's creation attempt precedes any child's. -/
theorem c8_labels_sorted_by_depth (d : Char) (labels : List (List Char)) :
    List.Sorted (fun a b : List Char => a.count d ≤ b.count d)
        (sortLabels d labels) ∧
      (sortLabels d labels).Perm labels := by
  constructor
  · haveI : IsTotal (List Char) (fun a b : List Char => a.count d ≤ b.count d) :=
      ⟨fun a b => Nat.le_total _ _⟩
    haveI : IsTrans (List Char) (fun a b : List Char => a.count d ≤ b.count d) :=
      ⟨fun a b c => Nat.le_trans⟩
    exact List.sorted_insertionSort _ _
  · exact List.perm_insertionSort _ _

theorem cl_ok (f : Nat → ConnOutcome) (i retries delay : Nat) (h : retries ≤ 15)
    (hok : f i = .ok) : connectLoop f i retries delay = ⟨none, i + 1, []⟩ := by
  rw [connectLoop]
  rw [dif_pos h, hok]

theorem cl_fail_step (f : Nat → ConnOutcome) (i retries delay : Nat)
    (h2 : retries + 1 ≤ 15) (hf : f i ≠ .ok) :
    connectLoop f i retries delay =
      ⟨(connectLoop f (i + 1) (retries + 1) (delay * 2)).exit,
       (connectLoop f (i + 1) (retries + 1) (delay * 2)).nextIdx,
       delay :: (connectLoop f (i + 1) (retries + 1) (delay * 2)).delays⟩ := by
  rw [connectLoop]
  rw [dif_pos (by omega : retries ≤ 15)]
  cases hfi : f i with
  | ok => exact absurd hfi hf
  | transientErr => rw [dif_pos h2]
  | authErr => rw [dif_pos h2]

theorem cl_exhaust (f : Nat → ConnOutcome) (i delay : Nat) (hf : f i ≠ .ok) :
    connectLoop f i 15 delay = ⟨some 1, i + 1, []⟩ := by
  rw [connectLoop]
  rw [dif_pos (by omega : (15:Nat) ≤ 15)]
  cases hfi : f i with
  | ok => exact absurd hfi hf
  | transientErr => rw [dif_neg (by omega : ¬ (15 + 1 : Nat) ≤ 15)]
  | authErr => rw [dif_neg (by omega : ¬ (15 + 1 : Nat) ≤ 15)]

theorem connectLoop_main (n : Nat) : ∀ (f : Nat → ConnOutcome) (i retries delay : Nat),
    16 - retries = n → retries ≤ 15 →
    (connectLoop f i retries delay).nextIdx ≤ i + n ∧
    ((connectLoop f i retries delay).exit = none ∨
      (connectLoop f i retries delay).exit = some 1) ∧
    (connectLoop f i retries delay).delays =
      (List.range (connectLoop f i retries delay).delays.length).map
        (fun t => delay * 2 ^ t) ∧
    (connectLoop f i retries delay).delays.length + 1 ≤ n ∧
    ((connectLoop f i retries delay).exit = some 1 →
      (connectLoop f i retries delay).nextIdx = i + n ∧
      ∀ j, i ≤ j → j < i + n → f j ≠ .ok) ∧
    ((connectLoop f i retries delay).exit = none →
      ∃ j, i ≤ j ∧ j < i + n ∧ f j = .ok) := by
  induction n with
  | zero => intro f i retries delay hn h; omega
  | succ n ih =>
    intro f i retries delay hn h
    by_cases hok : f i = .ok
    · rw [cl_ok f i retries delay h hok]
      refine ⟨?_, Or.inl rfl, rfl, ?_, ?_, ?_⟩
      · show i + 1 ≤ i + (n + 1)
        omega
      · show ([] : List Nat).length + 1 ≤ n + 1
        simp
      · intro hx; cases hx
      · intro _; exact ⟨i, le_refl i, by omega, hok⟩
    · by_cases h15 : retries + 1 ≤ 15
      · rw [cl_fail_step f i retries delay h15 hok]
        have hrec := ih f (i + 1) (retries + 1) (delay * 2) (by omega) h15
        rcases hrec with ⟨hidx, hexit, hdel, hlen, hex1, hex0⟩
        refine ⟨?_, ?_, ?_, ?_, ?_, ?_⟩
        · show (connectLoop f (i + 1) (retries + 1) (delay * 2)).nextIdx ≤ i + (n + 1)
          omega
        · exact hexit
        · show delay :: (connectLoop f (i + 1) (retries + 1) (delay * 2)).delays =
            (List.range
              ((delay :: (connectLoop f (i + 1) (retries + 1) (delay * 2)).delays).length)).map
              (fun t => delay * 2 ^ t)
          rw [List.length_cons, List.range_succ_eq_map, List.map_cons, List.map_map]
          congr 1
          · simp
          · rw [hdel]
            simp only [List.length_map, List.length_range]
            apply List.map_congr_left
            intro t _
            show delay * 2 * 2 ^ t = delay * 2 ^ (t + 1)
            rw [pow_succ]
            ring
        · show (delay :: (connectLoop f (i + 1) (retries + 1) (delay * 2)).delays).length + 1
            ≤ n + 1
          rw [List.length_cons]
          omega
        · intro hx
          rcases hex1 hx with ⟨hni, hall⟩
          constructor
          · show (connectLoop f (i + 1) (retries + 1) (delay * 2)).nextIdx = i + (n + 1)
            omega
          · intro j hij hjn
            by_cases hji : j = i
            · rw [hji]; exact hok
            · exact hall j (by omega) (by omega)
        · intro hx
          rcases hex0 hx with ⟨j, h1, h2, h3⟩
          exact ⟨j, by omega, by omega, h3⟩
      · have hr15 : retries = 15 := by omega
        subst hr15
        rw [cl_exhaust f i delay hok]
        refine ⟨?_, Or.inr rfl, rfl, ?_, ?_, ?_⟩
        · show i + 1 ≤ i + (n + 1)
          omega
        · show ([] : List Nat).length + 1 ≤ n + 1
          simp
        · intro _
          constructor
          · show i + 1 = i + (n + 1)
            omega
          · intro j hij hjn
            have hji : j = i := by omega
            rw [hji]
            exact hok
        · intro hx; cases hx

theorem cl_allfail (n : Nat) : ∀ (f : Nat → ConnOutcome) (i retries delay : Nat),
    16 - retries = n → retries ≤ 15 → (∀ j, f j ≠ .ok) →
    connectLoop f i retries delay =
      ⟨some 1, i + n, (List.range (n - 1)).map (fun t => delay * 2 ^ t)⟩ := by
  induction n with
  | zero => intro f i retries delay hn h _; omega
  | succ n ih =>
    intro f i retries delay hn h hf
    by_cases h15 : retries + 1 ≤ 15
    · rw [cl_fail_step f i retries delay h15 (hf i),
        ih f (i + 1) (retries + 1) (delay * 2) (by omega) h15 hf]
      simp only [ConnResult.mk.injEq]
      refine ⟨trivial, by omega, ?_⟩
      have hn1 : 1 ≤ n := by omega
      rw [show n + 1 - 1 = (n - 1) + 1 from by omega, List.range_succ_eq_map,
        List.map_cons, List.map_map]
      congr 1
      · simp
      · apply List.map_congr_left
        intro t _
        show delay * 2 * 2 ^ t = delay * 2 ^ (t + 1)
        rw [pow_succ]
        ring
    · have hr15 : retries = 15 := by omega
      subst hr15
      rw [cl_exhaust f i delay (hf i)]
      simp only [ConnResult.mk.injEq]
      refine ⟨trivial, by omega, ?_⟩
      have hn0 : n = 0 := by omega
      rw [hn0]
      rfl

/-- Claim C4, counterexample: with every connection attempt failing,
connect() makes 16 attempts (an initial attempt plus 15 retries), not at
most 15: the loop runs `while retries <= max_retries` with `retries`
starting at 0, so the body executes 16 times before `sys.exit(1)`. -/
theorem c4_cex :
    (connectFrom connAllFail 0).nextIdx = 16 ∧
      (connectFrom connAllFail 0).exit = some 1 := by
  have h := cl_allfail 16 connAllFail 0 0 1 rfl
    (by omega) (fun j => by intro hc; cases hc)
  unfold connectFrom
  rw [h]
  exact ⟨rfl, rfl⟩

/-- Claim C4 as amended: connect() makes at most 16 connection attempts
(one initial attempt plus at most 15 retries); the sleep before the k-th
retry is 2^(k-1) units (starting at 1 and doubling each failed attempt,
for at most 15 sleeps); and if every attempt fails, the process terminates
through sys.exit with status 1. -/
theorem c4_connect_bounds (f : Nat → ConnOutcome) :
    (connectFrom f 0).nextIdx ≤ 16 ∧
      (connectFrom f 0).delays =
        (List.range (connectFrom f 0).delays.length).map (fun t => 2 ^ t) ∧
      (connectFrom f 0).delays.length ≤ 15 ∧
      ((∀ j, f j ≠ .ok) → (connectFrom f 0).exit = some 1) := by
  unfold connectFrom
  have h := connectLoop_main 16 f 0 0 1 rfl (by omega)
  rcases h with ⟨hidx, hexit, hdel, hlen, hex1, hex0⟩
  refine ⟨by simpa using hidx, ?_, by omega, ?_⟩
  · rw [hdel]
    simp only [List.length_map, List.length_range]
    apply List.map_congr_left
    intro t _
    show 1 * 2 ^ t = 2 ^ t
    ring
  · intro hall
    rcases hexit with hnone | hsome
    · rcases hex0 hnone with ⟨j, _, _, hj⟩
      exact absurd hj (hall j)
    · exact hsome

theorem c4_witness :
    ((∀ j, connAllFail j ≠ ConnOutcome.ok) ∧
      (connectFrom connAllFail 0).exit = some 1) ∧
      (connectFrom connAllFail 0).nextIdx ≤ 16 :=
  ⟨⟨fun j hc => ConnOutcome.noConfusion hc,
    (c4_connect_bounds connAllFail).2.2.2 (fun j hc => ConnOutcome.noConfusion hc)⟩,
    (c4_connect_bounds connAllFail).1⟩

/-- Claim C5, counterexample: an authentication-style failure on the first
attempt does not make connect() fail fatally: with stream authThenOk (first
attempt raises a non-tuple exception, second succeeds) connect() retries
after a 1-unit sleep and returns connected after 2 attempts, with no
sys.exit. -/
theorem c5_cex :
    (connectFrom authThenOk 0).exit = none ∧
      (connectFrom authThenOk 0).nextIdx = 2 ∧
      (connectFrom authThenOk 0).delays = [1] := by
  unfold connectFrom
  rw [cl_fail_step authThenOk 0 0 1 (by omega) (by intro hc; cases hc),
    cl_ok authThenOk 1 1 2 (by omega) rfl]
  exact ⟨rfl, rfl, rfl⟩

/-- Claim C5 as amended: connect() retries every failure identically — an
authentication failure is caught either by the connection/protocol tuple
(imaplib.IMAP4.error, the class login raises) or by the generic handler,
and both retry with backoff.  There is no fatal first-attempt path: any
failed first attempt followed by a successful one yields a connected
session after one 1-unit sleep, and connect() exits (status 1) only when
all 16 attempts fail. -/
theorem c5_auth_failures_retried (f : Nat → ConnOutcome) (i : Nat) :
    ((connectFrom f i).exit = some 1 →
      (connectFrom f i).nextIdx = i + 16 ∧
        ∀ j, i ≤ j → j < i + 16 → f j ≠ .ok) ∧
      (f i ≠ .ok → f (i + 1) = .ok →
        connectFrom f i = ⟨none, i + 2, [1]⟩) := by
  constructor
  · intro hx
    exact (connectLoop_main 16 f i 0 1 rfl (by omega)).2.2.2.2.1 hx
  · intro h0 h1
    unfold connectFrom
    rw [cl_fail_step f i 0 1 (by omega) h0, cl_ok f (i + 1) 1 2 (by omega) h1]

theorem c5_witness :
    (authThenOk 0 ≠ ConnOutcome.ok ∧ authThenOk 1 = ConnOutcome.ok) ∧
      connectFrom authThenOk 0 = ⟨none, 2, [1]⟩ :=
  ⟨⟨fun hc => ConnOutcome.noConfusion hc, rfl⟩,
    (c5_auth_failures_retried authThenOk 0).2 (fun hc => ConnOutcome.noConfusion hc) rfl⟩

theorem ul_ok (up : Nat → UpOutcome) (conn : Nat → ConnOutcome) (p : AbsPath)
    (k retries ci delay : Nat) (h : retries ≤ 15) (hk : up k = .ok) :
    uploadLoop up conn p k retries ci delay = ⟨[.success p], none, k + 1, ci⟩ := by
  rw [uploadLoop]
  rw [dif_pos h, hk]

theorem ul_notOk (up : Nat → UpOutcome) (conn : Nat → ConnOutcome) (p : AbsPath)
    (k retries ci delay : Nat) (h : retries ≤ 15) (hk : up k = .notOk) :
    uploadLoop up conn p k retries ci delay = ⟨[.fail p], none, k + 1, ci⟩ := by
  rw [uploadLoop]
  rw [dif_pos h, hk]

theorem ul_other (up : Nat → UpOutcome) (conn : Nat → ConnOutcome) (p : AbsPath)
    (k retries ci delay : Nat) (h : retries ≤ 15) (hk : up k = .otherErr) :
    uploadLoop up conn p k retries ci delay = ⟨[.fail p], none, k + 1, ci⟩ := by
  rw [uploadLoop]
  rw [dif_pos h, hk]

theorem ul_trans_exit (up : Nat → UpOutcome) (conn : Nat → ConnOutcome) (p : AbsPath)
    (k retries ci delay : Nat) (h2 : retries + 1 ≤ 15) (hk : up k = .transientErr)
    (code : Nat) (hc : (connectFrom conn ci).exit = some code) :
    uploadLoop up conn p k retries ci delay =
      ⟨[], some code, k + 1, (connectFrom conn ci).nextIdx⟩ := by
  rw [uploadLoop]
  rw [dif_pos (by omega : retries ≤ 15), hk, dif_pos h2, hc]

theorem ul_trans_step (up : Nat → UpOutcome) (conn : Nat → ConnOutcome) (p : AbsPath)
    (k retries ci delay : Nat) (h2 : retries + 1 ≤ 15) (hk : up k = .transientErr)
    (hc : (connectFrom conn ci).exit = none) :
    uploadLoop up conn p k retries ci delay =
      uploadLoop up conn p (k + 1) (retries + 1) (connectFrom conn ci).nextIdx
        (delay * 2) := by
  rw [uploadLoop]
  rw [dif_pos (by omega : retries ≤ 15), hk, dif_pos h2, hc]

theorem ul_trans_exhaust (up : Nat → UpOutcome) (conn : Nat → ConnOutcome) (p : AbsPath)
    (k ci delay : Nat) (hk : up k = .transientErr) :
    uploadLoop up conn p k 15 ci delay = ⟨[.fail p], none, k + 1, ci⟩ := by
  rw [uploadLoop]
  rw [dif_pos (by omega : (15:Nat) ≤ 15), hk,
    dif_neg (by omega : ¬ (15 + 1 : Nat) ≤ 15)]

theorem ul_main (n : Nat) : ∀ (up : Nat → UpOutcome) (conn : Nat → ConnOutcome)
    (p : AbsPath) (k retries ci delay : Nat), 16 - retries = n → retries ≤ 15 →
    ((uploadLoop up conn p k retries ci delay).exit = none →
      (uploadLoop up conn p k retries ci delay).log = [LedgerLine.success p] ∨
      (uploadLoop up conn p k retries ci delay).log = [LedgerLine.fail p]) ∧
    (∀ code, (uploadLoop up conn p k retries ci delay).exit = some code →
      (uploadLoop up conn p k retries ci delay).log = []) := by
  induction n with
  | zero => intro up conn p k retries ci delay hn h; omega
  | succ n ih =>
    intro up conn p k retries ci delay hn h
    cases hk : up k with
    | ok =>
      rw [ul_ok up conn p k retries ci delay h hk]
      exact ⟨fun _ => Or.inl rfl, fun code hx => Option.noConfusion hx⟩
    | notOk =>
      rw [ul_notOk up conn p k retries ci delay h hk]
      exact ⟨fun _ => Or.inr rfl, fun code hx => Option.noConfusion hx⟩
    | otherErr =>
      rw [ul_other up conn p k retries ci delay h hk]
      exact ⟨fun _ => Or.inr rfl, fun code hx => Option.noConfusion hx⟩
    | transientErr =>
      by_cases h15 : retries + 1 ≤ 15
      · cases hc : (connectFrom conn ci).exit with
        | none =>
          rw [ul_trans_step up conn p k retries ci delay h15 hk hc]
          exact ih up conn p (k + 1) (retries + 1) (connectFrom conn ci).nextIdx
            (delay * 2) (by omega) h15
        | some code =>
          rw [ul_trans_exit up conn p k retries ci delay h15 hk code hc]
          exact ⟨fun hx => Option.noConfusion hx, fun _ _ => rfl⟩
      · have hr15 : retries = 15 := by omega
        subst hr15
        rw [ul_trans_exhaust up conn p k ci delay hk]
        exact ⟨fun _ => Or.inr rfl, fun code hx => Option.noConfusion hx⟩

theorem ul_allTransOk (n : Nat) : ∀ (up : Nat → UpOutcome) (conn : Nat → ConnOutcome)
    (p : AbsPath) (k retries ci delay : Nat), 16 - retries = n → retries ≤ 15 →
    (∀ j, up j = .transientErr) → (∀ j, conn j = .ok) →
    uploadLoop up conn p k retries ci delay =
      ⟨[LedgerLine.fail p], none, k + n, ci + (n - 1)⟩ := by
  induction n with
  | zero => intro up conn p k retries ci delay hn h _ _; omega
  | succ n ih =>
    intro up conn p k retries ci delay hn h hup hconn
    have hcf : connectFrom conn ci = ⟨none, ci + 1, []⟩ :=
      cl_ok conn ci 0 1 (by omega) (hconn ci)
    by_cases h15 : retries + 1 ≤ 15
    · rw [ul_trans_step up conn p k retries ci delay h15 (hup k)
        (by rw [hcf])]
      rw [show (connectFrom conn ci).nextIdx = ci + 1 from by rw [hcf]]
      rw [ih up conn p (k + 1) (retries + 1) (ci + 1) (delay * 2) (by omega) h15
        hup hconn]
      simp only [UpResult.mk.injEq]
      refine ⟨trivial, trivial, by omega, by omega⟩
    · have hr15 : retries = 15 := by omega
      subst hr15
      rw [ul_trans_exhaust up conn p k ci delay (hup k)]
      simp only [UpResult.mk.injEq]
      have hn0 : n = 0 := by omega
      refine ⟨trivial, trivial, by omega, by omega⟩

theorem ul_reconnect_exit (up : Nat → UpOutcome) (conn : Nat → ConnOutcome)
    (p : AbsPath) (k ci : Nat) (hk : up k = .transientErr)
    (hconn : ∀ j, conn j ≠ .ok) :
    upload_email up conn p k ci = ⟨[], some 1, k + 1, ci + 16⟩ := by
  have hcf : connectFrom conn ci = ⟨some 1, ci + 16,
      (List.range 15).map (fun t => 1 * 2 ^ t)⟩ := by
    have := cl_allfail 16 conn ci 0 1 rfl (by omega) hconn
    simpa using this
  unfold upload_email
  rw [ul_trans_exit up conn p k 0 ci 1 (by omega) hk 1 (by rw [hcf]),
    show (connectFrom conn ci).nextIdx = ci + 16 from by rw [hcf]]

theorem runUploads_allTransOk (up : Nat → UpOutcome) (conn : Nat → ConnOutcome)
    (hup : ∀ j, up j = .transientErr) (hconn : ∀ j, conn j = .ok) :
    ∀ (ps : List AbsPath) (k ci : Nat),
      runUploads up conn ps k ci = (ps.map LedgerLine.fail, none) := by
  intro ps
  induction ps with
  | nil => intro k ci; rfl
  | cons p ps ih =>
    intro k ci
    have he : upload_email up conn p k ci =
        ⟨[LedgerLine.fail p], none, k + 16, ci + 15⟩ := by
      unfold upload_email
      exact ul_allTransOk 16 up conn p k 0 ci 1 rfl (by omega) hup hconn
    show (match (upload_email up conn p k ci).exit with
      | some c => ((upload_email up conn p k ci).log, some c)
      | none =>
        let r := upload_email up conn p k ci
        let rest := runUploads up conn ps r.nextK r.connIdx
        (r.log ++ rest.1, rest.2)) = ((p :: ps).map LedgerLine.fail, none)
    rw [he]
    show (LedgerLine.fail p :: (runUploads up conn ps (k + 16) (ci + 15)).1,
      (runUploads up conn ps (k + 16) (ci + 15)).2) = _
    rw [ih (k + 16) (ci + 15)]
    rfl

/-- Claim C2, counterexample: a call of upload_email can append no ledger
line at all: if the first append attempt fails transiently and the
reconnect inside the retry handler exhausts its attempts, connect() calls
sys.exit(1) — SystemExit escapes upload_email before any `[fail]` line is
written. -/
theorem c2_cex :
    (upload_email upAllTransient connAllFail samplePath 0 0).log = [] ∧
      (upload_email upAllTransient connAllFail samplePath 0 0).exit = some 1 := by
  rw [ul_reconnect_exit upAllTransient connAllFail samplePath 0 0 rfl
    (fun j hc => ConnOutcome.noConfusion hc)]
  exact ⟨rfl, rfl⟩

/-- Claim C2 as amended: every call of upload_email that returns (that is,
does not terminate the process through an exhausted mid-retry reconnect)
appends exactly one ledger line — `[success] path` or `[fail] path` —
each immediately flushed, and intermediate retries append nothing; a call
that exits through the reconnect appends no line for its item. -/
theorem c2_one_ledger_line (up : Nat → UpOutcome) (conn : Nat → ConnOutcome)
    (p : AbsPath) (k ci : Nat) :
    ((upload_email up conn p k ci).exit = none →
      (upload_email up conn p k ci).log = [LedgerLine.success p] ∨
      (upload_email up conn p k ci).log = [LedgerLine.fail p]) ∧
    (∀ code, (upload_email up conn p k ci).exit = some code →
      (upload_email up conn p k ci).log = []) := by
  unfold upload_email
  exact ul_main 16 up conn p k 0 ci 1 rfl (by omega)

theorem c2_witness :
    (upload_email upAllOk connAllOk samplePath 0 0).exit = none ∧
      ((upload_email upAllOk connAllOk samplePath 0 0).log =
          [LedgerLine.success samplePath] ∨
        (upload_email upAllOk connAllOk samplePath 0 0).log =
          [LedgerLine.fail samplePath]) := by
  have he : upload_email upAllOk connAllOk samplePath 0 0 =
      ⟨[LedgerLine.success samplePath], none, 1, 0⟩ := by
    unfold upload_email
    exact ul_ok upAllOk connAllOk samplePath 0 0 0 1 (by omega) rfl
  exact ⟨by rw [he],
    (c2_one_ledger_line upAllOk connAllOk samplePath 0 0).1 (by rw [he])⟩

/-- Claim C3, counterexample: with every append attempt failing transiently
and every reconnect succeeding, the item is recorded `[fail]` only after 16
append attempts (nextK = 16 starting from 0), not after 15: the loop runs
`while retries <= max_retries` with retries counting from 0 to 15
inclusive. -/
theorem c3_cex :
    (upload_email upAllTransient connAllOk samplePath 0 0).nextK = 16 ∧
      (upload_email upAllTransient connAllOk samplePath 0 0).log =
        [LedgerLine.fail samplePath] := by
  have he : upload_email upAllTransient connAllOk samplePath 0 0 =
      ⟨[LedgerLine.fail samplePath], none, 0 + 16, 0 + 15⟩ := by
    unfold upload_email
    exact ul_allTransOk 16 upAllTransient connAllOk samplePath 0 0 0 1 rfl
      (by omega) (fun _ => rfl) (fun _ => rfl)
  rw [he]
  exact ⟨rfl, rfl⟩

/-- Claim C3 as amended: if every append attempt for an item fails
transiently and every reconnect succeeds, then after 16 attempts the item
is recorded `[fail]` exactly once and execution proceeds to the next item
(a whole run writes one `[fail]` line per item and does not terminate);
but if a mid-retry reconnect exhausts its attempts, the process terminates
with exit status 1 instead of surfacing a transient failure to the
caller. -/
theorem c3_transient_exhaustion (up : Nat → UpOutcome)
    (conn : Nat → ConnOutcome) (p : AbsPath) (k ci : Nat) :
    ((∀ j, up j = .transientErr) → (∀ j, conn j = .ok) →
      upload_email up conn p k ci =
        ⟨[LedgerLine.fail p], none, k + 16, ci + 15⟩) ∧
    ((∀ j, up j = .transientErr) → (∀ j, conn j = .ok) → ∀ ps k2 ci2,
      runUploads up conn ps k2 ci2 = (ps.map LedgerLine.fail, none)) ∧
    (up k = .transientErr → (∀ j, conn j ≠ .ok) →
      upload_email up conn p k ci = ⟨[], some 1, k + 1, ci + 16⟩) := by
  refine ⟨?_, ?_, ?_⟩
  · intro hup hconn
    unfold upload_email
    exact ul_allTransOk 16 up conn p k 0 ci 1 rfl (by omega) hup hconn
  · intro hup hconn ps k2 ci2
    exact runUploads_allTransOk up conn hup hconn ps k2 ci2
  · intro hk hconn
    exact ul_reconnect_exit up conn p k ci hk hconn

theorem c3_witness :
    ((∀ j, upAllTransient j = UpOutcome.transientErr) ∧
      (∀ j, connAllOk j = ConnOutcome.ok)) ∧
      upload_email upAllTransient connAllOk samplePath2 0 0 =
        ⟨[LedgerLine.fail samplePath2], none, 0 + 16, 0 + 15⟩ ∧
      runUploads upAllTransient connAllOk [samplePath, samplePath2] 0 0 =
        ([LedgerLine.fail samplePath, LedgerLine.fail samplePath2], none) :=
  ⟨⟨fun _ => rfl, fun _ => rfl⟩,
    (c3_transient_exhaustion upAllTransient connAllOk samplePath2 0 0).1
      (fun _ => rfl) (fun _ => rfl),
    (c3_transient_exhaustion upAllTransient connAllOk samplePath2 0 0).2.1
      (fun _ => rfl) (fun _ => rfl) [samplePath, samplePath2] 0 0⟩
